import Mathlib

/-!
# Verification of `gremp` (`src/lib.rs`, `src/main.rs`)

A shallow embedding of the `gremp` command-line search tool.  Strings are
modelled as `List Char`; the standard-library functions the crate calls
(`str::lines`, `str::contains`, `str::to_lowercase`, `env::var`,
`fs::read_to_string`, `println!`) are embedded at their documented semantics:

* `str::lines` is `split_inclusive('\n')` followed by stripping a trailing
  `'\n'` and, only when one was stripped, a trailing `'\r'`;
* `str::contains` is contiguous-substring containment;
* `str::to_lowercase` maps each character through the Unicode lowercase
  table, except a capital sigma `'Σ'`, which is mapped to `'ς'` in
  `Final_Sigma` position (preceded by case-ignorables then a cased
  character, and not followed by case-ignorables then a cased character)
  and to `'σ'` otherwise.  The per-character table and the `Cased` /
  `Case_Ignorable` classes are restricted here to the ASCII and Greek
  letters (identity, resp. `false`, elsewhere);
* the environment and the file system are passed in explicitly as maps, and
  the output of `run` is returned as the list of printed records.
-/

set_option autoImplicit false

namespace Gremp

/-- `str::contains`: `containsSub hay needle` is `true` iff `needle` occurs
in `hay` as a contiguous substring (checked as: prefix of some suffix). -/
def containsSub : List Char → List Char → Bool
  | [], needle => needle.isPrefixOf []
  | hay@(_ :: t), needle => needle.isPrefixOf hay || containsSub t needle

/-- `str::split_inclusive('\n')`: split after every `'\n'`, keeping the
terminator in the piece; no trailing empty piece. -/
def splitInclusiveNL : List Char → List (List Char)
  | [] => []
  | c :: rest =>
    if c = '\n' then [c] :: splitInclusiveNL rest
    else
      match splitInclusiveNL rest with
      | [] => [[c]]
      | l :: ls => (c :: l) :: ls

/-- `str::strip_suffix` for a single character. -/
def stripSuffixChar (l : List Char) (c : Char) : Option (List Char) :=
  if l.getLast? = some c then some l.dropLast else none

/-- The per-item map of `str::lines`: remove one trailing `'\n'` and, only
when one was removed, one trailing `'\r'`. -/
def linesMap (l : List Char) : List Char :=
  match stripSuffixChar l '\n' with
  | none => l
  | some l2 =>
    match stripSuffixChar l2 '\r' with
    | none => l2
    | some l3 => l3

/-- `str::lines`. -/
def rustLines (s : List Char) : List (List Char) :=
  (splitInclusiveNL s).map linesMap

/-- `char::to_lowercase`, restricted to the ASCII capital letters and the
Greek capital letters `'Α'..'Ω'` (identity on every other character).  The
result is a list because Unicode lowercasing is one-to-many in general. -/
def charToLower (c : Char) : List Char :=
  if ('A' ≤ c ∧ c ≤ 'Z') ∨ ('Α' ≤ c ∧ c ≤ 'Ω') then [Char.ofNat (c.toNat + 32)]
  else [c]

/-- Unicode `Cased`, restricted to the ASCII and Greek letters. -/
def cased (c : Char) : Bool :=
  decide (('A' ≤ c ∧ c ≤ 'Z') ∨ ('a' ≤ c ∧ c ≤ 'z') ∨
          ('Α' ≤ c ∧ c ≤ 'Ω') ∨ ('α' ≤ c ∧ c ≤ 'ω'))

/-- Unicode `Case_Ignorable`, restricted to a few representative members. -/
def caseIgnorable (c : Char) : Bool :=
  c == '.' || c == ':' || c == '·'

/-- Rust's `case_ignorable_then_cased`: skip case-ignorable characters, then
test whether the next character is cased. -/
def caseIgnorableThenCased : List Char → Bool
  | [] => false
  | c :: rest => if caseIgnorable c then caseIgnorableThenCased rest else cased c

/-- Rust's `map_uppercase_sigma`: `'Σ'` lowercases to `'ς'` exactly in
`Final_Sigma` position.  `before` is the preceding text, most recent
character first (Rust reverses it); `after` is the following text. -/
def sigmaLower (before after : List Char) : List Char :=
  if caseIgnorableThenCased before && !caseIgnorableThenCased after then ['ς']
  else ['σ']

/-- The character loop of `str::to_lowercase`, carrying the already-consumed
text (most recent character first) for the sigma context check. -/
def lowerAux (before : List Char) : List Char → List Char
  | [] => []
  | c :: rest =>
    (if c = 'Σ' then sigmaLower before rest else charToLower c) ++
      lowerAux (c :: before) rest

/-- `str::to_lowercase`. -/
def to_lowercase (s : List Char) : List Char :=
  lowerAux [] s

/-- `.enumerate().map(|(idx, line)| (idx + 1, line))`: pair each line with
its 1-based number. -/
def numberLines (ls : List (List Char)) : List (Nat × List Char) :=
  ls.enum.map (fun p => (p.1 + 1, p.2))

/-- `search` (case-sensitive):
`contents.lines().enumerate().map(|(idx, line)| (idx + 1, line))
  .filter(|(_, line)| line.contains(pattern)).collect()`. -/
def search (pattern contents : List Char) : List (Nat × List Char) :=
  (numberLines (rustLines contents)).filter (fun p => containsSub p.2 pattern)

/-- `search_case_insensitive`:
as `search`, with filter `line.to_lowercase().contains(&pattern.to_lowercase())`. -/
def search_case_insensitive (pattern contents : List Char) : List (Nat × List Char) :=
  (numberLines (rustLines contents)).filter
    (fun p => containsSub (to_lowercase p.2) (to_lowercase pattern))

/-- `Config { pattern, filename, case_sensitive }`. -/
structure Config where
  pattern : List Char
  filename : List Char
  case_sensitive : Bool

/-- The process environment, as a map from variable name to value. -/
def EnvMap : Type := List Char → Option (List Char)

/-- `'\''` (written via its code point). -/
def apostrophe : Char := Char.ofNat 39

/-- The error string `"Didn't get pattern to match"`. -/
def didntGetPatternMsg : List Char :=
  "Didn".data ++ [apostrophe] ++ "t get pattern to match".data

/-- The error string `"Didn't get filename"`. -/
def didntGetFilenameMsg : List Char :=
  "Didn".data ++ [apostrophe] ++ "t get filename".data

/-- The environment variable consulted by `Config::new`. -/
def caseInsensitiveVar : List Char := "CASE_INSENSITIVE".data

/-- `Config::new`: discard the program name, take `pattern` then `filename`
from the remaining arguments, and set `case_sensitive` from
`env::var("CASE_INSENSITIVE").is_err()` (the variable being absent). -/
def Config.new (args : List (List Char)) (env : EnvMap) :
    Except (List Char) Config :=
  match args.drop 1 with
  | [] => Except.error didntGetPatternMsg
  | pattern :: rest =>
    match rest with
    | [] => Except.error didntGetFilenameMsg
    | filename :: _ =>
      Except.ok { pattern := pattern, filename := filename,
                  case_sensitive := (env caseInsensitiveVar).isNone }

/-- The error of `run` (the `Box<dyn Error>` produced by
`fs::read_to_string`). -/
inductive RunError where
  | ioError
deriving DecidableEq

/-- One `println!("{}. {}", line_no, line)` record: decimal line number,
period, space, the line text, newline-terminated. -/
def fmtRecord (p : Nat × List Char) : List Char :=
  (Nat.repr p.1).data ++ ". ".data ++ p.2 ++ ['\n']

/-- `run`: read the file (`fs` models `fs::read_to_string`; `none` is a read
failure), select the matcher by `config.case_sensitive`, and print one
record per result.  The `ok` value is everything written to stdout, in
order; on a read failure nothing is written. -/
def run (config : Config) (fs : List Char → Option (List Char)) :
    Except RunError (List (List Char)) :=
  match fs config.filename with
  | none => Except.error RunError.ioError
  | some contents =>
    let results :=
      if config.case_sensitive then search config.pattern contents
      else search_case_insensitive config.pattern contents
    Except.ok (results.map fmtRecord)

/-! ## Concrete data used for witnesses (from the crate's test suite) -/

def exContents : List Char :=
  "Rust:\nSafe, fast, productive.\nPick three.\nDuct tape.".data

def exLine2 : List Char := "Safe, fast, productive.".data

def exConfig : Config :=
  { pattern := "duct".data, filename := "sample.txt".data, case_sensitive := true }

def exFs : List Char → Option (List Char) := fun _ => some exContents

def exFsNone : List Char → Option (List Char) := fun _ => none

/-! ## Character-level helper lemmas -/

theorem toNat_charOfNat {n : Nat} (h : n < 55296) : (Char.ofNat n).toNat = n := by
  have hv : n.isValidChar := Or.inl h
  simp [Char.ofNat, hv, Char.ofNatAux, Char.toNat, UInt32.ofNat', UInt32.toNat]

theorem char_le_iff_toNat {a b : Char} : a ≤ b ↔ a.toNat ≤ b.toNat := Iff.rfl

theorem char_eq_iff_toNat {a b : Char} : a = b ↔ a.toNat = b.toNat := by
  constructor
  · intro h; rw [h]
  · intro h
    apply Char.ext
    exact @UInt32.toNat.inj a.val b.val h

/-- Any character produced by `charToLower c` is `c` itself, or `c`
shifted by 32 with `c` an ASCII or Greek capital letter. -/
theorem mem_charToLower {d c : Char} (h : d ∈ charToLower c) :
    d = c ∨ (65 ≤ c.toNat ∧ c.toNat ≤ 90 ∧ d.toNat = c.toNat + 32) ∨
      (913 ≤ c.toNat ∧ c.toNat ≤ 937 ∧ d.toNat = c.toNat + 32) := by
  unfold charToLower at h
  split at h
  · next hcond =>
    simp only [List.mem_singleton] at h
    have hA : ('A').toNat = 65 := by decide
    have hZ : ('Z').toNat = 90 := by decide
    have hGA : ('Α').toNat = 913 := by decide
    have hGO : ('Ω').toNat = 937 := by decide
    rcases hcond with ⟨h1, h2⟩ | ⟨h1, h2⟩
    · have l1 := char_le_iff_toNat.mp h1
      have l2 := char_le_iff_toNat.mp h2
      have hb : c.toNat + 32 < 55296 := by omega
      have heq := char_eq_iff_toNat.mp h
      rw [toNat_charOfNat hb] at heq
      right; left; omega
    · have l1 := char_le_iff_toNat.mp h1
      have l2 := char_le_iff_toNat.mp h2
      have hb : c.toNat + 32 < 55296 := by omega
      have heq := char_eq_iff_toNat.mp h
      rw [toNat_charOfNat hb] at heq
      right; right; omega
  · simp only [List.mem_singleton] at h
    left; exact h

/-! ## Substring containment -/

/-- `containsSub` decides contiguous-substring containment. -/
theorem containsSub_iff {hay needle : List Char} :
    containsSub hay needle = true ↔ needle <:+: hay := by
  induction hay with
  | nil => simp [containsSub, List.isPrefixOf_iff_prefix]
  | cons c t ih =>
    simp [containsSub, List.isPrefixOf_iff_prefix, ih, List.infix_cons_iff]

/-! ## Numbered lines -/

theorem map_succ_enumFrom {α : Type} (ls : List α) :
    ∀ n : Nat, (ls.enumFrom n).map (fun p => (p.1 + 1, p.2)) = ls.enumFrom (n + 1) := by
  induction ls with
  | nil => intro n; rfl
  | cons x xs ih => intro n; simp only [List.enumFrom_cons, List.map_cons, ih]

/-- Numbering the lines is enumeration starting at 1. -/
theorem numberLines_eq_enumFrom (ls : List (List Char)) :
    numberLines ls = ls.enumFrom 1 := by
  unfold numberLines
  rw [List.enum_eq_enumFrom, map_succ_enumFrom]

theorem mem_enumFrom_facts {α : Type} {ls : List α} {n m : Nat} {x : α}
    (h : (m, x) ∈ ls.enumFrom n) :
    n ≤ m ∧ m < n + ls.length ∧ ls[m - n]? = some x := by
  induction ls generalizing n with
  | nil => simp [List.enumFrom] at h
  | cons y ys ih =>
    rw [List.enumFrom_cons] at h
    rcases List.mem_cons.mp h with h1 | h1
    · simp only [Prod.mk.injEq] at h1
      obtain ⟨rfl, rfl⟩ := h1
      refine ⟨Nat.le_refl _, by simp, ?_⟩
      simp
    · obtain ⟨ha, hb, hc⟩ := ih h1
      refine ⟨by omega, by simp; omega, ?_⟩
      have hmn : m - n = (m - (n + 1)) + 1 := by omega
      rw [hmn, List.getElem?_cons_succ]
      exact hc

theorem exists_mem_enumFrom {α : Type} {ls : List α} {x : α} (h : x ∈ ls) (n : Nat) :
    ∃ m, (m, x) ∈ ls.enumFrom n := by
  induction h generalizing n with
  | head l => exact ⟨n, by simp⟩
  | tail b hm ih =>
    obtain ⟨m, hm2⟩ := ih (n + 1)
    exact ⟨m, by simp only [List.enumFrom_cons, List.mem_cons]; right; exact hm2⟩

theorem pairwise_enumFrom {α : Type} (ls : List α) (n : Nat) :
    (ls.enumFrom n).Pairwise (fun a b => a.1 < b.1) := by
  induction ls generalizing n with
  | nil => simp [List.enumFrom]
  | cons y ys ih =>
    rw [List.enumFrom_cons]
    refine List.Pairwise.cons ?_ (ih (n + 1))
    intro p hp
    obtain ⟨m, x⟩ := p
    have := mem_enumFrom_facts hp
    simp only []
    omega

/-! ## The shared filter shape of the two matchers -/

theorem search_eq_filter (pattern contents : List Char) :
    search pattern contents =
      ((rustLines contents).enumFrom 1).filter (fun p => containsSub p.2 pattern) := by
  unfold search
  rw [numberLines_eq_enumFrom]

theorem search_ci_eq_filter (pattern contents : List Char) :
    search_case_insensitive pattern contents =
      ((rustLines contents).enumFrom 1).filter
        (fun p => containsSub (to_lowercase p.2) (to_lowercase pattern)) := by
  unfold search_case_insensitive
  rw [numberLines_eq_enumFrom]

theorem mem_filter_enumFrom {L : List (List Char)} {f : Nat × List Char → Bool}
    {p : Nat × List Char} (h : p ∈ (L.enumFrom 1).filter f) :
    1 ≤ p.1 ∧ p.1 ≤ L.length ∧ L[p.1 - 1]? = some p.2 := by
  have h1 := (List.mem_filter.mp h).1
  obtain ⟨m, x⟩ := p
  have h2 := mem_enumFrom_facts h1
  exact ⟨h2.1, by omega, h2.2.2⟩

theorem pairwise_filter_enumFrom (L : List (List Char)) (f : Nat × List Char → Bool) :
    ((L.enumFrom 1).filter f).Pairwise (fun a b => a.1 < b.1) :=
  List.Pairwise.sublist (List.filter_sublist _) (pairwise_enumFrom L 1)

theorem length_filter_enumFrom (L : List (List Char)) (f : Nat × List Char → Bool) :
    ((L.enumFrom 1).filter f).length ≤ L.length := by
  have := List.Sublist.length_le (List.filter_sublist (p := f) (L.enumFrom 1))
  rwa [List.enumFrom_length] at this

theorem map_snd_filter_enumFrom (L : List (List Char)) (f : Nat × List Char → Bool) :
    (((L.enumFrom 1).filter f).map Prod.snd).Sublist L := by
  have := List.Sublist.map Prod.snd (List.filter_sublist (p := f) (L.enumFrom 1))
  rwa [List.enumFrom_map_snd] at this

/-! ## Lines lemmas -/

theorem stripSuffixChar_pos {l : List Char} {c : Char}
    (h : l.getLast? = some c) : stripSuffixChar l c = some l.dropLast := by
  simp [stripSuffixChar, h]

theorem stripSuffixChar_neg {l : List Char} {c : Char}
    (h : l.getLast? ≠ some c) : stripSuffixChar l c = none := by
  simp [stripSuffixChar, h]

/-- Every piece produced by `splitInclusiveNL` is nonempty and contains a
newline at most as its final character. -/
theorem mem_splitInclusiveNL (s : List Char) :
    ∀ p ∈ splitInclusiveNL s, p ≠ [] ∧ '\n' ∉ p.dropLast := by
  induction s with
  | nil => simp [splitInclusiveNL]
  | cons c rest ih =>
    intro p h
    rw [splitInclusiveNL] at h
    split at h
    · rcases List.mem_cons.mp h with rfl | h1
      · exact ⟨by simp, by simp⟩
      · exact ih p h1
    · next hc =>
      split at h
      · next heq =>
        rcases List.mem_cons.mp h with rfl | h1
        · exact ⟨by simp, by simp⟩
        · simp at h1
      · next l ls heq =>
        rcases List.mem_cons.mp h with rfl | h1
        · have hl := ih l (heq ▸ List.mem_cons_self l ls)
          refine ⟨by simp, ?_⟩
          obtain ⟨d, l2, rfl⟩ := List.exists_cons_of_ne_nil hl.1
          rw [List.dropLast_cons₂]
          intro hmem
          rcases List.mem_cons.mp hmem with rfl | h2
          · exact hc rfl
          · exact hl.2 (by simpa using h2)
        · exact ih p (heq ▸ List.mem_cons_of_mem l h1)

/-- A piece with no interior newline maps, under the `lines` per-item map,
to a line with no newline at all. -/
theorem nl_not_mem_linesMap {p : List Char} (hne : p ≠ [])
    (hd : '\n' ∉ p.dropLast) : '\n' ∉ linesMap p := by
  by_cases h1 : p.getLast? = some '\n'
  · by_cases h2 : p.dropLast.getLast? = some '\r'
    · simp only [linesMap, stripSuffixChar_pos h1, stripSuffixChar_pos h2]
      intro hmem
      exact hd ((List.dropLast_sublist _).subset hmem)
    · simp only [linesMap, stripSuffixChar_pos h1, stripSuffixChar_neg h2]
      exact hd
  · simp only [linesMap, stripSuffixChar_neg h1]
    intro hmem
    rw [← List.dropLast_append_getLast hne] at hmem
    rcases List.mem_append.mp hmem with h2 | h2
    · exact hd h2
    · simp only [List.mem_singleton] at h2
      exact h1 (h2 ▸ List.getLast?_eq_getLast p hne)

/-- No produced line contains a newline character. -/
theorem nl_not_mem_rustLines {s l : List Char} (h : l ∈ rustLines s) :
    '\n' ∉ l := by
  unfold rustLines at h
  obtain ⟨p, hp, rfl⟩ := List.mem_map.mp h
  obtain ⟨h1, h2⟩ := mem_splitInclusiveNL s p hp
  exact nl_not_mem_linesMap h1 h2

theorem splitInclusiveNL_no_nl {s : List Char} (h1 : s ≠ []) (h2 : '\n' ∉ s) :
    splitInclusiveNL s = [s] := by
  induction s with
  | nil => cases h1 rfl
  | cons c rest ih =>
    have hc : c ≠ '\n' := fun hc => h2 (hc ▸ List.mem_cons_self c rest)
    rw [splitInclusiveNL, if_neg hc]
    by_cases hr : rest = []
    · subst hr; simp [splitInclusiveNL]
    · rw [ih hr (fun hmem => h2 (List.mem_cons_of_mem _ hmem))]

theorem linesMap_of_no_nl {s : List Char} (h2 : '\n' ∉ s) : linesMap s = s := by
  have hg : s.getLast? ≠ some '\n' := by
    intro hg
    exact h2 (List.mem_of_getLast?_eq_some hg)
  simp [linesMap, stripSuffixChar, if_neg hg]

/-- Contents without a newline — in particular contents whose only
separators are lone carriage returns — form a single line, kept verbatim. -/
theorem rustLines_no_nl {s : List Char} (h1 : s ≠ []) (h2 : '\n' ∉ s) :
    rustLines s = [s] := by
  unfold rustLines
  rw [splitInclusiveNL_no_nl h1 h2]
  simp [linesMap_of_no_nl h2]

/-! ## Lowercase lemmas -/

/-- Processing a sigma-free prefix is the context-free per-character map. -/
theorem lowerAux_append_no_sigma {x : List Char} (hx : 'Σ' ∉ x) :
    ∀ (B y : List Char),
      lowerAux B (x ++ y) = x.flatMap charToLower ++ lowerAux (x.reverse ++ B) y := by
  induction x with
  | nil => intro B y; simp
  | cons c t ih =>
    intro B y
    have hc : c ≠ 'Σ' := fun h => hx (h ▸ List.mem_cons_self c t)
    have ht : 'Σ' ∉ t := fun h => hx (List.mem_cons_of_mem c h)
    rw [List.cons_append, lowerAux, if_neg hc, ih ht (c :: B) y]
    simp [List.flatMap_cons, List.reverse_cons, List.append_assoc]

/-- Processing any prefix produces some prefix of the output. -/
theorem lowerAux_append_exists (x : List Char) :
    ∀ (B y : List Char),
      ∃ pre, lowerAux B (x ++ y) = pre ++ lowerAux (x.reverse ++ B) y := by
  induction x with
  | nil => intro B y; exact ⟨[], by simp⟩
  | cons c t ih =>
    intro B y
    obtain ⟨pre, hpre⟩ := ih (c :: B) y
    refine ⟨(if c = 'Σ' then sigmaLower B (t ++ y) else charToLower c) ++ pre, ?_⟩
    rw [List.cons_append, lowerAux, hpre]
    simp [List.reverse_cons, List.append_assoc]

/-- Sigma-free strings lowercase context-freely. -/
theorem to_lowercase_no_sigma {p : List Char} (hp : 'Σ' ∉ p) :
    to_lowercase p = p.flatMap charToLower := by
  have h := lowerAux_append_no_sigma hp [] []
  simpa [to_lowercase, lowerAux] using h

/-- For a sigma-free pattern, lowercasing preserves substring containment. -/
theorem to_lowercase_infix {p l : List Char} (hp : 'Σ' ∉ p) (h : p <:+: l) :
    to_lowercase p <:+: to_lowercase l := by
  obtain ⟨a, b, rfl⟩ := h
  obtain ⟨pre, hpre⟩ := lowerAux_append_exists a [] (p ++ b)
  have hL : lowerAux [] p = p.flatMap charToLower := to_lowercase_no_sigma hp
  unfold to_lowercase
  rw [List.append_assoc, hpre, lowerAux_append_no_sigma hp, hL]
  exact ⟨pre, lowerAux (p.reverse ++ (a.reverse ++ [])) b,
    List.append_assoc _ _ _⟩

theorem nl_mem_lowerAux {x : List Char} (h : '\n' ∈ x) :
    ∀ B, '\n' ∈ lowerAux B x := by
  induction h with
  | head l =>
    intro B
    rw [lowerAux]
    have hc : ('\n') ≠ 'Σ' := by decide
    rw [if_neg hc]
    apply List.mem_append_left
    decide
  | tail b hm ih =>
    intro B
    rw [lowerAux]
    exact List.mem_append_right _ (ih (b :: B))

theorem nl_not_mem_lowerAux (x : List Char) :
    ∀ B, '\n' ∉ x → '\n' ∉ lowerAux B x := by
  induction x with
  | nil => intro B _; simp [lowerAux]
  | cons c t ih =>
    intro B h hmem
    rw [lowerAux] at hmem
    rcases List.mem_append.mp hmem with h1 | h1
    · split at h1
      · unfold sigmaLower at h1
        split at h1
        · simp at h1
        · simp at h1
      · rcases mem_charToLower h1 with rfl | hr | hr
        · exact h (List.mem_cons_self _ _)
        · have h10 : ('\n').toNat = 10 := by decide
          omega
        · have h10 : ('\n').toNat = 10 := by decide
          omega
    · exact ih (c :: B) (fun hm => h (List.mem_cons_of_mem c hm)) h1

theorem nl_mem_to_lowercase {x : List Char} (h : '\n' ∈ x) :
    '\n' ∈ to_lowercase x :=
  nl_mem_lowerAux h []

theorem nl_not_mem_to_lowercase {x : List Char} (h : '\n' ∉ x) :
    '\n' ∉ to_lowercase x :=
  nl_not_mem_lowerAux x [] h

/-! ## Claim theorems -/

/-- C1: a line of the contents is included in the result of `search` iff it
contains the pattern as a contiguous substring, and in the result of
`search_case_insensitive` iff its full-string lowercasing contains the
full-string lowercasing of the pattern as a contiguous substring. -/
theorem c1_line_included_iff (pattern contents line : List Char)
    (hline : line ∈ rustLines contents) :
    ((∃ n, (n, line) ∈ search pattern contents) ↔ pattern <:+: line) ∧
    ((∃ n, (n, line) ∈ search_case_insensitive pattern contents) ↔
      to_lowercase pattern <:+: to_lowercase line) := by
  constructor
  · constructor
    · rintro ⟨n, hn⟩
      rw [search_eq_filter] at hn
      have h2 := (List.mem_filter.mp hn).2
      exact containsSub_iff.mp (by simpa using h2)
    · intro hinf
      obtain ⟨m, hm⟩ := exists_mem_enumFrom hline 1
      refine ⟨m, ?_⟩
      rw [search_eq_filter]
      exact List.mem_filter.mpr ⟨hm, by simpa using containsSub_iff.mpr hinf⟩
  · constructor
    · rintro ⟨n, hn⟩
      rw [search_ci_eq_filter] at hn
      have h2 := (List.mem_filter.mp hn).2
      exact containsSub_iff.mp (by simpa using h2)
    · intro hinf
      obtain ⟨m, hm⟩ := exists_mem_enumFrom hline 1
      refine ⟨m, ?_⟩
      rw [search_ci_eq_filter]
      exact List.mem_filter.mpr ⟨hm, by simpa using containsSub_iff.mpr hinf⟩

/-- Witness for C1 at the crate's own test data. -/
theorem c1_witness :
    (exLine2 ∈ rustLines exContents) ∧
    (((∃ n, (n, exLine2) ∈ search "duct".data exContents) ↔
        "duct".data <:+: exLine2) ∧
     ((∃ n, (n, exLine2) ∈ search_case_insensitive "duct".data exContents) ↔
        to_lowercase "duct".data <:+: to_lowercase exLine2)) :=
  ⟨by decide, c1_line_included_iff "duct".data exContents exLine2 (by decide)⟩

/-- C2 as stated is false: searching for the single capital sigma, the
case-sensitive matcher returns the line `"ΑΣ"`, while the case-insensitive
matcher returns nothing at all — `"ΑΣ"` lowercases to `"ας"` (final
sigma), but the pattern `"Σ"` lowercases to `"σ"`. -/
theorem c2_counterexample :
    (1, ['Α', 'Σ']) ∈ search ['Σ'] ['Α', 'Σ'] ∧
    search_case_insensitive ['Σ'] ['Α', 'Σ'] = [] := by
  constructor
  · decide
  · decide

/-- C2 (amended): provided the pattern contains no capital sigma `'Σ'`
(the one character whose lowercasing is context-sensitive), every entry
returned by `search` — in particular every line — is also returned by
`search_case_insensitive`. -/
theorem c2_superset_no_sigma (pattern contents : List Char)
    (hp : 'Σ' ∉ pattern) :
    ∀ x ∈ search pattern contents,
      x ∈ search_case_insensitive pattern contents := by
  intro x hx
  rw [search_eq_filter] at hx
  rw [search_ci_eq_filter]
  have h1 := List.mem_filter.mp hx
  refine List.mem_filter.mpr ⟨h1.1, ?_⟩
  have hc : containsSub x.2 pattern = true := by simpa using h1.2
  have hinf := to_lowercase_infix hp (containsSub_iff.mp hc)
  simpa using containsSub_iff.mpr hinf

/-- Witness for C2 (amended) at the crate's own test data. -/
theorem c2_witness :
    ('Σ' ∉ "duct".data) ∧ ((2, exLine2) ∈ search "duct".data exContents) ∧
    (2, exLine2) ∈ search_case_insensitive "duct".data exContents :=
  ⟨by decide, by decide,
    c2_superset_no_sigma "duct".data exContents (by decide) (2, exLine2)
      (by decide)⟩

/-- C3: for both matchers, every returned number lies in
`[1, number_of_lines]`, indexes (1-based) the very line it is paired with,
the numbers are strictly increasing (hence no entry repeats), the result
has at most as many entries as there are lines, and the returned line
texts form an order-preserving subsequence of the lines. -/
theorem c3_invariants (pattern contents : List Char) :
    ((∀ p ∈ search pattern contents,
        1 ≤ p.1 ∧ p.1 ≤ (rustLines contents).length ∧
          (rustLines contents)[p.1 - 1]? = some p.2) ∧
     (search pattern contents).Pairwise (fun a b => a.1 < b.1) ∧
     (search pattern contents).length ≤ (rustLines contents).length ∧
     ((search pattern contents).map Prod.snd).Sublist (rustLines contents)) ∧
    ((∀ p ∈ search_case_insensitive pattern contents,
        1 ≤ p.1 ∧ p.1 ≤ (rustLines contents).length ∧
          (rustLines contents)[p.1 - 1]? = some p.2) ∧
     (search_case_insensitive pattern contents).Pairwise
       (fun a b => a.1 < b.1) ∧
     (search_case_insensitive pattern contents).length ≤
       (rustLines contents).length ∧
     ((search_case_insensitive pattern contents).map Prod.snd).Sublist
       (rustLines contents)) := by
  rw [search_eq_filter, search_ci_eq_filter]
  exact ⟨⟨fun p hp => mem_filter_enumFrom hp, pairwise_filter_enumFrom _ _,
          length_filter_enumFrom _ _, map_snd_filter_enumFrom _ _⟩,
         ⟨fun p hp => mem_filter_enumFrom hp, pairwise_filter_enumFrom _ _,
          length_filter_enumFrom _ _, map_snd_filter_enumFrom _ _⟩⟩

/-- Witness for C3 at the crate's own test data. -/
theorem c3_witness :
    ((2, exLine2) ∈ search "duct".data exContents) ∧
    (1 ≤ 2 ∧ 2 ≤ (rustLines exContents).length ∧
      (rustLines exContents)[2 - 1]? = some exLine2) :=
  ⟨by decide,
    (c3_invariants "duct".data exContents).1.1 (2, exLine2) (by decide)⟩

/-- C4: with the empty pattern, both matchers return every line of the
contents with its correct 1-based number, in document order. -/
theorem c4_empty_pattern (contents : List Char) :
    search [] contents = numberLines (rustLines contents) ∧
    search_case_insensitive [] contents = numberLines (rustLines contents) := by
  constructor
  · unfold search
    refine List.filter_eq_self.mpr ?_
    intro a _
    exact by simpa using containsSub_iff.mpr List.nil_infix
  · unfold search_case_insensitive
    refine List.filter_eq_self.mpr ?_
    intro a _
    have h0 : to_lowercase ([] : List Char) = [] := rfl
    simpa [h0] using containsSub_iff.mpr List.nil_infix

/-- C5: with a pattern and a filename present, `Config::new` succeeds, and
the configuration is case-insensitive exactly when `CASE_INSENSITIVE` is
present in the environment (whatever its value), case-sensitive exactly
when it is absent. -/
theorem c5_env_controls_case (a p f : List Char) (rest : List (List Char))
    (env : EnvMap) :
    ∃ cfg, Config.new (a :: p :: f :: rest) env = Except.ok cfg ∧
      cfg.pattern = p ∧ cfg.filename = f ∧
      (cfg.case_sensitive = false ↔ (env caseInsensitiveVar).isSome = true) ∧
      (cfg.case_sensitive = true ↔ env caseInsensitiveVar = none) := by
  refine ⟨⟨p, f, (env caseInsensitiveVar).isNone⟩, rfl, rfl, rfl, ?_, ?_⟩
  · cases env caseInsensitiveVar <;> simp
  · cases env caseInsensitiveVar <;> simp

/-- C6: `Config::new` fails with the missing-pattern reason exactly when no
pattern argument follows the program name, with the missing-filename
reason exactly when a pattern but no filename follows, and succeeds when
both are present; it consults no file system at all (none is in scope). -/
theorem c6_config_arg_errors (env : EnvMap) (a p f : List Char)
    (rest : List (List Char)) :
    Config.new [] env = Except.error didntGetPatternMsg ∧
    Config.new [a] env = Except.error didntGetPatternMsg ∧
    Config.new [a, p] env = Except.error didntGetFilenameMsg ∧
    ∃ cfg, Config.new (a :: p :: f :: rest) env = Except.ok cfg :=
  ⟨rfl, rfl, rfl, ⟨_, rfl⟩⟩

/-- C7: a pattern containing a newline matches no line of any contents,
for either matcher, and this is not an error (the result is simply empty). -/
theorem c7_newline_pattern_never_matches (pattern contents : List Char)
    (h : '\n' ∈ pattern) :
    search pattern contents = [] ∧
    search_case_insensitive pattern contents = [] := by
  constructor
  · rw [search_eq_filter]
    refine List.filter_eq_nil_iff.mpr ?_
    intro x hx hc
    have hline : x.2 ∈ rustLines contents := by
      have hm := List.mem_map_of_mem Prod.snd hx
      rwa [List.enumFrom_map_snd] at hm
    have hinf := containsSub_iff.mp (by simpa using hc)
    exact nl_not_mem_rustLines hline (hinf.subset h)
  · rw [search_ci_eq_filter]
    refine List.filter_eq_nil_iff.mpr ?_
    intro x hx hc
    have hline : x.2 ∈ rustLines contents := by
      have hm := List.mem_map_of_mem Prod.snd hx
      rwa [List.enumFrom_map_snd] at hm
    have hinf := containsSub_iff.mp (by simpa using hc)
    exact nl_not_mem_to_lowercase (nl_not_mem_rustLines hline)
      (hinf.subset (nl_mem_to_lowercase h))

/-- Witness for C7. -/
theorem c7_witness :
    ('\n' ∈ "a\nb".data) ∧
    (search "a\nb".data exContents = [] ∧
     search_case_insensitive "a\nb".data exContents = []) :=
  ⟨by decide, c7_newline_pattern_never_matches "a\nb".data exContents (by decide)⟩

/-- C8: when the file reads successfully, `run` succeeds and emits exactly
one record per matcher-result entry, in result order (whose line numbers
are strictly increasing), each formatted by `fmtRecord` (decimal number,
period, space, exact line text, newline); an empty result emits nothing
while still succeeding. -/
theorem c8_run_output (config : Config) (fs : List Char → Option (List Char))
    (contents : List Char) (h : fs config.filename = some contents) :
    run config fs = Except.ok
      ((if config.case_sensitive then search config.pattern contents
        else search_case_insensitive config.pattern contents).map fmtRecord) ∧
    (if config.case_sensitive then search config.pattern contents
      else search_case_insensitive config.pattern contents).Pairwise
        (fun a b => a.1 < b.1) ∧
    ((if config.case_sensitive then search config.pattern contents
      else search_case_insensitive config.pattern contents) = [] →
        run config fs = Except.ok []) := by
  refine ⟨?_, ?_, ?_⟩
  · simp [run, h]
  · by_cases hc : config.case_sensitive
    · simp only [hc, if_pos]
      rw [search_eq_filter]
      exact pairwise_filter_enumFrom _ _
    · simp only [hc, if_neg, Bool.false_eq_true]
      rw [search_ci_eq_filter]
      exact pairwise_filter_enumFrom _ _
  · intro he
    simp [run, h, he]

/-- Witness for C8. -/
theorem c8_witness :
    (exFs exConfig.filename = some exContents) ∧
    (run exConfig exFs = Except.ok
      ((if exConfig.case_sensitive then search exConfig.pattern exContents
        else search_case_insensitive exConfig.pattern exContents).map
          fmtRecord) ∧
     (if exConfig.case_sensitive then search exConfig.pattern exContents
      else search_case_insensitive exConfig.pattern exContents).Pairwise
        (fun a b => a.1 < b.1) ∧
     ((if exConfig.case_sensitive then search exConfig.pattern exContents
       else search_case_insensitive exConfig.pattern exContents) = [] →
         run exConfig exFs = Except.ok [])) :=
  ⟨rfl, c8_run_output exConfig exFs exContents rfl⟩

/-- C9: when the file cannot be read, `run` fails with the I/O error and
emits no output (its output list never materialises). -/
theorem c9_run_io_error (config : Config)
    (fs : List Char → Option (List Char)) (h : fs config.filename = none) :
    run config fs = Except.error RunError.ioError := by
  simp [run, h]

/-- Witness for C9. -/
theorem c9_witness : run exConfig exFsNone = Except.error RunError.ioError :=
  c9_run_io_error exConfig exFsNone rfl

/-- C10: a carriage return not followed by a line feed is not a line
terminator: contents without `'\n'` form one single line kept verbatim
(lone `'\r'`s included), and a pattern containing `'\r'` can match it. -/
theorem c10_lone_cr (contents : List Char) (h1 : contents ≠ [])
    (h2 : '\n' ∉ contents) :
    rustLines contents = [contents] ∧
    (∀ pattern, search pattern contents =
      if containsSub contents pattern then [(1, contents)] else []) ∧
    (∀ pattern, search_case_insensitive pattern contents =
      if containsSub (to_lowercase contents) (to_lowercase pattern)
        then [(1, contents)] else []) := by
  refine ⟨rustLines_no_nl h1 h2, ?_, ?_⟩
  · intro pattern
    rw [search_eq_filter, rustLines_no_nl h1 h2]
    by_cases hc : containsSub contents pattern
    · simp [List.filter_cons, hc]
    · simp [List.filter_cons, hc]
  · intro pattern
    rw [search_ci_eq_filter, rustLines_no_nl h1 h2]
    by_cases hc : containsSub (to_lowercase contents) (to_lowercase pattern)
    · simp [List.filter_cons, hc]
    · simp [List.filter_cons, hc]

/-- Witness for C10: `"a\rb"` is one line, and the CR-containing pattern
`"\rb"` matches it. -/
theorem c10_witness :
    ("a\rb".data ≠ ([] : List Char)) ∧ ('\n' ∉ "a\rb".data) ∧
    rustLines "a\rb".data = ["a\rb".data] ∧
    search "\rb".data "a\rb".data = [(1, "a\rb".data)] := by
  have h := c10_lone_cr "a\rb".data (by decide) (by decide)
  exact ⟨by decide, by decide, h.1, by rw [h.2.1 ("\rb".data)]; decide⟩

end Gremp
